import Mathlib

/-!
Shallow embedding of `crates/sui-core/src/db_checkpoint_handler.rs`.

The handler reconciles epoch-numbered database checkpoint directories
between a local store and a remote object store.  We model:

* `read_checkpoint_dir`   — listing + parsing of `epoch_<N>` child names
                             into an ordered epoch → location map
                             (a `BTreeMap` in the source, a key-sorted
                             association list here);
* `find_all_missing_checkpoint_epochs` (`gapScan`) — the gap detector:
                             given the remote epoch map together with the
                             outcome of the `SUCCESS_MARKER` read for each
                             remote epoch dir, produce the ascending
                             missing-epoch list terminated by a sentinel;
* `upload_db_checkpoints_to_object_store` — the uploader, both as a state
                             transformer on local/remote stores and as the
                             trace of externally visible effects
                             (prune, copy, remote marker put, local marker
                             put);
* `garbage_collect_old_db_checkpoints` — the marker-gated GC pass;
* the scheduler's gauge update `epochs.first().cloned().unwrap_or(0)`.

Machine integers: epochs are `u32` in the source; all arithmetic on them
here (`candidate_epoch += 1`, comparisons) is modelled on `Nat`.  The only
place overflow could matter is `candidate_epoch += 1` past `u32::MAX`,
which would require a remote directory named `epoch_4294967295`; the
`u32` range check is kept in `parseU32` where the source parses.
-/

/-- Outcome of `output_object_store.get(&success_marker)` as matched in
`find_all_missing_checkpoint_epochs`: `Err(Error::NotFound)`, any other
`Err`, or `Ok`. -/
inductive GetResult where
  | notFound
  | otherErr
  | found
deriving DecidableEq, Repr

/-- Keys of an association list (the epochs of an epoch → location map). -/
def keysOf {α : Type} (l : List (Nat × α)) : List Nat :=
  l.map Prod.fst

/-- The final value of `candidate_epoch` after the scan loop of
`find_all_missing_checkpoint_epochs`: for each dir entry, the `while`
loop raises the counter to at least the entry's epoch, then
`candidate_epoch += 1`. -/
def sentinelFrom {α : Type} (cand : Nat) (l : List (Nat × α)) : Nat :=
  l.foldl (fun c p => max c p.1 + 1) cand

/-- The scan loop of `find_all_missing_checkpoint_epochs`, lines 189-215:
iterate over the remote dir entries in ascending epoch order, paired with
the result of reading that epoch's `SUCCESS_MARKER`; `cand` is
`candidate_epoch`.  `List.range' cand (e - cand)` is exactly the epochs
emitted by `while candidate_epoch < *epoch_num`, after which the counter
stands at `max cand e`; a `NotFound` marker read pushes the epoch itself;
then `candidate_epoch += 1`.  The final push of `candidate_epoch`
(line 215) is the `[cand]` base case. -/
def gapScan : List (Nat × GetResult) → Nat → List Nat
  | [], cand => [cand]
  | (e, r) :: rest, cand =>
      List.range' cand (e - cand)
        ++ (if r = GetResult.notFound then [e] else [])
        ++ gapScan rest (max cand e + 1)

/-- `find_all_missing_checkpoint_epochs`, given the remote epoch map
(ascending keys, as iterated from the `BTreeMap`) annotated with each
epoch's marker-read result. -/
def find_all_missing_checkpoint_epochs (l : List (Nat × GetResult)) : List Nat :=
  gapScan l 0

/-- The scheduler's gauge update on a successful detection
(line 132): `epochs.first().cloned().map(|x| x as i64).unwrap_or(0)`. -/
def firstMissingGauge (epochs : List Nat) : Int :=
  (epochs.head?.map (fun x => (x : Int))).getD 0

example : find_all_missing_checkpoint_epochs
    [(0, GetResult.found), (1, GetResult.found), (3, GetResult.found)] = [2, 4] := by
  decide

example : find_all_missing_checkpoint_epochs
    [(0, GetResult.found), (1, GetResult.found), (3, GetResult.notFound)] = [2, 3, 4] := by
  decide

example : find_all_missing_checkpoint_epochs [] = [0] := by decide

example : firstMissingGauge [2, 4] = 2 := by decide

/-! ### Structural lemmas about the gap-detection scan -/

@[simp]
theorem keysOf_nil {α : Type} : keysOf ([] : List (Nat × α)) = [] := rfl

@[simp]
theorem keysOf_cons {α : Type} (p : Nat × α) (rest : List (Nat × α)) :
    keysOf (p :: rest) = p.1 :: keysOf rest := rfl

theorem sentinelFrom_cons {α : Type} (cand e : Nat) (r : α) (rest : List (Nat × α)) :
    sentinelFrom cand ((e, r) :: rest) = sentinelFrom (max cand e + 1) rest := rfl

/-- The final counter value only depends on the epochs, not on the
marker-read results attached to them. -/
theorem sentinelFrom_eq_keys_foldl {α : Type} (cand : Nat) (l : List (Nat × α)) :
    sentinelFrom cand l = (keysOf l).foldl (fun c k => max c k + 1) cand := by
  simp [sentinelFrom, keysOf, List.foldl_map]

theorem le_sentinelFrom {α : Type} (cand : Nat) (l : List (Nat × α)) :
    cand ≤ sentinelFrom cand l := by
  induction l generalizing cand with
  | nil => simp [sentinelFrom]
  | cons p rest ih =>
      obtain ⟨e, r⟩ := p
      rw [sentinelFrom_cons]
      exact le_trans (by omega) (ih (max cand e + 1))

theorem lt_sentinelFrom_of_mem_keys {α : Type} {l : List (Nat × α)} {e : Nat}
    (he : e ∈ keysOf l) (cand : Nat) : e < sentinelFrom cand l := by
  induction l generalizing cand with
  | nil => simp at he
  | cons p rest ih =>
      obtain ⟨k, r⟩ := p
      rw [sentinelFrom_cons]
      rcases List.mem_cons.mp he with h | h
      · subst h
        exact lt_of_lt_of_le (by omega) (le_sentinelFrom (max cand e + 1) rest)
      · exact ih h _

/-- With the keys ascending and all at least `cand`, the sentinel is one
past the last (highest) key. -/
theorem sentinelFrom_eq_getLast_succ {α : Type} {l : List (Nat × α)} {cand k : Nat}
    (hs : (keysOf l).Pairwise (· < ·)) (hlb : ∀ x ∈ keysOf l, cand ≤ x)
    (hk : (keysOf l).getLast? = some k) : sentinelFrom cand l = k + 1 := by
  induction l generalizing cand with
  | nil => simp at hk
  | cons p rest ih =>
      obtain ⟨e, r⟩ := p
      have hce : cand ≤ e := hlb e (by simp)
      obtain ⟨he, hs'⟩ := List.pairwise_cons.mp hs
      have hmax : max cand e = e := by omega
      rw [sentinelFrom_cons, hmax]
      cases hrest : rest with
      | nil =>
          subst hrest
          simp [sentinelFrom] at *
          omega
      | cons q qs =>
          have hne : keysOf (q :: qs) ≠ [] := by simp
          have hk' : (keysOf rest).getLast? = some k := by
            rw [hrest] at hk ⊢
            rw [keysOf_cons, ← List.singleton_append, List.getLast?_append_of_ne_nil _ hne] at hk
            exact hk
          rw [← hrest] at hne ⊢
          exact ih hs' (fun x hx => by have := he x hx; omega) hk'

theorem gapScan_ne_nil (l : List (Nat × GetResult)) (cand : Nat) :
    gapScan l cand ≠ [] := by
  induction l generalizing cand with
  | nil => simp [gapScan]
  | cons p rest ih =>
      obtain ⟨e, r⟩ := p
      simp only [gapScan]
      intro h
      rcases List.append_eq_nil.mp h with ⟨h1, h2⟩
      exact ih (max cand e + 1) h2

/-- The scan's last element is always the final counter value. -/
theorem gapScan_getLast? (l : List (Nat × GetResult)) (cand : Nat) :
    (gapScan l cand).getLast? = some (sentinelFrom cand l) := by
  induction l generalizing cand with
  | nil => simp [gapScan, sentinelFrom]
  | cons p rest ih =>
      obtain ⟨e, r⟩ := p
      simp only [gapScan, sentinelFrom_cons]
      rw [List.getLast?_append_of_ne_nil _ (gapScan_ne_nil rest (max cand e + 1))]
      exact ih (max cand e + 1)

/-- Every element the scan emits is at least the starting counter
(for an ascending key list bounded below by the counter). -/
theorem le_of_mem_gapScan {l : List (Nat × GetResult)} {cand : Nat}
    (hs : (keysOf l).Pairwise (· < ·)) (hlb : ∀ k ∈ keysOf l, cand ≤ k)
    {x : Nat} (hx : x ∈ gapScan l cand) : cand ≤ x := by
  induction l generalizing cand with
  | nil =>
      simp [gapScan] at hx
      omega
  | cons p rest ih =>
      obtain ⟨e, r⟩ := p
      have hce : cand ≤ e := hlb e (by simp)
      obtain ⟨he, hs'⟩ := List.pairwise_cons.mp hs
      have hlb' : ∀ k ∈ keysOf rest, max cand e + 1 ≤ k := by
        intro k hk
        have := he k hk
        omega
      simp only [gapScan, List.mem_append] at hx
      rcases hx with (h | h) | h
      · exact (List.mem_range'_1.mp h).1
      · by_cases hr : r = GetResult.notFound
        · simp [hr] at h
          omega
        · simp [hr] at h
      · have := ih hs' hlb' h
        omega

/-- The missing-epoch list is strictly ascending. -/
theorem gapScan_pairwise {l : List (Nat × GetResult)} {cand : Nat}
    (hs : (keysOf l).Pairwise (· < ·)) (hlb : ∀ k ∈ keysOf l, cand ≤ k) :
    (gapScan l cand).Pairwise (· < ·) := by
  induction l generalizing cand with
  | nil => simp [gapScan]
  | cons p rest ih =>
      obtain ⟨e, r⟩ := p
      have hce : cand ≤ e := hlb e (by simp)
      obtain ⟨he, hs'⟩ := List.pairwise_cons.mp hs
      have hlb' : ∀ k ∈ keysOf rest, max cand e + 1 ≤ k := by
        intro k hk
        have := he k hk
        omega
      simp only [gapScan]
      rw [List.pairwise_append]
      refine ⟨?_, ih hs' hlb', ?_⟩
      · rw [List.pairwise_append]
        refine ⟨List.pairwise_lt_range' cand (e - cand), ?_, ?_⟩
        · by_cases hr : r = GetResult.notFound <;> simp [hr]
        · intro x hx y hy
          have hxr := List.mem_range'_1.mp hx
          by_cases hr : r = GetResult.notFound
          · simp [hr] at hy
            omega
          · simp [hr] at hy
      · intro x hx y hy
        have hy' := le_of_mem_gapScan hs' hlb' hy
        simp only [List.mem_append] at hx
        rcases hx with h | h
        · have hxr := List.mem_range'_1.mp h
          omega
        · by_cases hr : r = GetResult.notFound
          · simp [hr] at h
            omega
          · simp [hr] at h

/-- Completeness for directory gaps: every epoch below the sentinel whose
directory is absent is emitted. -/
theorem mem_gapScan_of_gap {l : List (Nat × GetResult)} {cand m : Nat}
    (hs : (keysOf l).Pairwise (· < ·)) (hlb : ∀ k ∈ keysOf l, cand ≤ k)
    (hm : m ∉ keysOf l) (h1 : cand ≤ m) (h2 : m < sentinelFrom cand l) :
    m ∈ gapScan l cand := by
  induction l generalizing cand with
  | nil =>
      simp [sentinelFrom] at h2
      simp [gapScan]
      omega
  | cons p rest ih =>
      obtain ⟨e, r⟩ := p
      have hce : cand ≤ e := hlb e (by simp)
      obtain ⟨he, hs'⟩ := List.pairwise_cons.mp hs
      have hme : m ≠ e := by
        intro h
        exact hm (by simp [h])
      have hm' : m ∉ keysOf rest := fun h => hm (by simp [h])
      have hlb' : ∀ k ∈ keysOf rest, max cand e + 1 ≤ k := by
        intro k hk
        have := he k hk
        omega
      simp only [gapScan, List.mem_append]
      by_cases hlt : m < e
      · exact Or.inl (Or.inl (List.mem_range'_1.mpr ⟨h1, by omega⟩))
      · refine Or.inr ?_
        rw [sentinelFrom_cons] at h2
        exact ih hs' hlb' hm' (by omega) h2

/-- Every epoch whose marker read came back `NotFound` is emitted. -/
theorem mem_gapScan_of_notFound {l : List (Nat × GetResult)} {e : Nat}
    (h : (e, GetResult.notFound) ∈ l) (cand : Nat) : e ∈ gapScan l cand := by
  induction l generalizing cand with
  | nil => cases h
  | cons p rest ih =>
      obtain ⟨k, r⟩ := p
      simp only [gapScan, List.mem_append]
      rcases List.mem_cons.mp h with h | h
      · injection h with hk hr
        subst hk
        subst hr
        simp
      · exact Or.inr (ih h (max cand k + 1))

/-- Soundness: everything the scan emits is either the sentinel, a
directory gap, or an epoch whose marker read was a definite `NotFound`. -/
theorem mem_gapScan_cases {l : List (Nat × GetResult)} {cand m : Nat}
    (hs : (keysOf l).Pairwise (· < ·)) (hlb : ∀ k ∈ keysOf l, cand ≤ k)
    (hm : m ∈ gapScan l cand) :
    m = sentinelFrom cand l ∨ m ∉ keysOf l ∨ (m, GetResult.notFound) ∈ l := by
  induction l generalizing cand with
  | nil =>
      simp [gapScan] at hm
      simp [sentinelFrom, hm]
  | cons p rest ih =>
      obtain ⟨e, r⟩ := p
      have hce : cand ≤ e := hlb e (by simp)
      obtain ⟨he, hs'⟩ := List.pairwise_cons.mp hs
      have hlb' : ∀ k ∈ keysOf rest, max cand e + 1 ≤ k := by
        intro k hk
        have := he k hk
        omega
      simp only [gapScan, List.mem_append] at hm
      rcases hm with (h | h) | h
      · have hb := List.mem_range'_1.mp h
        have hme : m < e := by omega
        refine Or.inr (Or.inl ?_)
        simp only [keysOf_cons, List.mem_cons]
        rintro (h1 | h1)
        · omega
        · have := he m h1
          omega
      · by_cases hr : r = GetResult.notFound
        · simp [hr] at h
          subst h
          exact Or.inr (Or.inr (by simp [hr]))
        · simp [hr] at h
      · rcases ih hs' hlb' h with h1 | h1 | h1
        · exact Or.inl (by rw [sentinelFrom_cons]; exact h1)
        · have hge := le_of_mem_gapScan hs' hlb' h
          refine Or.inr (Or.inl ?_)
          simp only [keysOf_cons, List.mem_cons]
          rintro (h2 | h2)
          · omega
          · exact h1 h2
        · exact Or.inr (Or.inr (List.mem_cons_of_mem _ h1))

/-- In a map with strictly ascending keys, a key determines its entry. -/
theorem assoc_value_unique {α : Type} {l : List (Nat × α)}
    (hs : (keysOf l).Pairwise (· < ·)) {e : Nat} {a b : α}
    (ha : (e, a) ∈ l) (hb : (e, b) ∈ l) : a = b := by
  induction l with
  | nil => cases ha
  | cons p rest ih =>
      obtain ⟨hhd, hs'⟩ := List.pairwise_cons.mp hs
      rcases List.mem_cons.mp ha with h1 | h1 <;> rcases List.mem_cons.mp hb with h2 | h2
      · rw [← h1] at h2
        injection h2 with hk hv
        exact hv.symm
      · have : e ∈ keysOf rest := List.mem_map_of_mem Prod.fst h2
        have := hhd e this
        rw [← h1] at this
        omega
      · have : e ∈ keysOf rest := List.mem_map_of_mem Prod.fst h1
        have := hhd e this
        rw [← h2] at this
        omega
      · exact ih hs' h1 h2

/-- If the scan over all-`found`, contiguous-from-`cand` epochs runs, the
result is exactly the singleton sentinel. -/
theorem gapScan_contiguous_found {l : List (Nat × GetResult)} {cand : Nat}
    (hcont : keysOf l = List.range' cand l.length)
    (hall : ∀ p ∈ l, p.2 = GetResult.found) :
    gapScan l cand = [cand + l.length] := by
  induction l generalizing cand with
  | nil => simp [gapScan]
  | cons p rest ih =>
      obtain ⟨e, r⟩ := p
      simp only [keysOf_cons, List.length_cons] at hcont
      rw [List.range'_succ cand rest.length 1] at hcont
      injection hcont with hce hcont'
      subst hce
      have hr : r = GetResult.found := hall (e, r) (by simp)
      have hrec := @ih (e + 1) (by simpa using hcont')
        (fun q hq => hall q (List.mem_cons_of_mem _ hq))
      simp only [gapScan, hr, Nat.sub_self, List.range'_zero, max_self]
      simp only [List.nil_append]
      rw [show (if GetResult.found = GetResult.notFound then [e] else []) = [] by simp]
      simp only [List.nil_append, hrec, List.length_cons]
      congr 1
      omega

/-! ### Claim theorems about the gap detector -/

/-- C1: for every remote epoch index (ascending unique keys, each
annotated with its marker-read outcome), the missing-epoch list is
strictly ascending, never empty, ends in the sentinel one past the
highest remote epoch (`0` for an empty index), and every epoch at or
below the highest remote epoch whose directory is absent appears in the
list before the sentinel. -/
theorem c1_gap_detection_shape (l : List (Nat × GetResult))
    (hs : (keysOf l).Pairwise (· < ·)) :
    find_all_missing_checkpoint_epochs l ≠ []
    ∧ (find_all_missing_checkpoint_epochs l).Pairwise (· < ·)
    ∧ (find_all_missing_checkpoint_epochs l).getLast? =
        some (((keysOf l).getLast?.map (fun k => k + 1)).getD 0)
    ∧ (∀ hi m, (keysOf l).getLast? = some hi → m ≤ hi → m ∉ keysOf l →
        m ∈ (find_all_missing_checkpoint_epochs l).dropLast) := by
  have hlb : ∀ k ∈ keysOf l, 0 ≤ k := fun k _ => Nat.zero_le k
  have hlast := gapScan_getLast? l 0
  have hsent : sentinelFrom 0 l = ((keysOf l).getLast?.map (fun k => k + 1)).getD 0 := by
    cases hl : l with
    | nil => simp [sentinelFrom]
    | cons p rest =>
        have hne : keysOf l ≠ [] := by simp [hl]
        obtain ⟨k, hk⟩ := Option.ne_none_iff_exists'.mp
          (fun h => hne (List.getLast?_eq_none_iff.mp h))
        rw [← hl]
        rw [sentinelFrom_eq_getLast_succ hs hlb hk, hk]
        rfl
  refine ⟨gapScan_ne_nil l 0, gapScan_pairwise hs hlb, by rw [find_all_missing_checkpoint_epochs, hlast, hsent], ?_⟩
  intro hi m hhi hmhi hmem
  have hne := gapScan_ne_nil l 0
  have hmem' : m ∈ gapScan l 0 := by
    apply mem_gapScan_of_gap hs hlb hmem (Nat.zero_le m)
    rw [sentinelFrom_eq_getLast_succ hs hlb hhi]
    omega
  have hsplit := List.dropLast_append_getLast hne
  have hlastv : (gapScan l 0).getLast hne = sentinelFrom 0 l := by
    have := List.getLast?_eq_getLast (gapScan l 0) hne
    rw [this] at hlast
    injection hlast
  rw [find_all_missing_checkpoint_epochs] at *
  rw [← hsplit] at hmem'
  rcases List.mem_append.mp hmem' with h | h
  · exact h
  · exfalso
    simp only [List.mem_singleton] at h
    rw [hlastv, sentinelFrom_eq_getLast_succ hs hlb hhi] at h
    omega

/-- C1 witness input: remote epochs 0 and 3 present, epoch 0 synced,
epoch 3 incomplete. -/
theorem c1_gap_detection_shape_witness :
    ([(0, GetResult.found), (3, GetResult.notFound)].map Prod.fst).Pairwise (· < ·)
    ∧ (find_all_missing_checkpoint_epochs [(0, GetResult.found), (3, GetResult.notFound)] ≠ []
      ∧ (find_all_missing_checkpoint_epochs
          [(0, GetResult.found), (3, GetResult.notFound)]).Pairwise (· < ·)
      ∧ (find_all_missing_checkpoint_epochs
          [(0, GetResult.found), (3, GetResult.notFound)]).getLast? =
          some (((keysOf [(0, GetResult.found), (3, GetResult.notFound)]).getLast?.map
            (fun k => k + 1)).getD 0)
      ∧ (∀ hi m, (keysOf [(0, GetResult.found), (3, GetResult.notFound)]).getLast? = some hi →
          m ≤ hi → m ∉ keysOf [(0, GetResult.found), (3, GetResult.notFound)] →
          m ∈ (find_all_missing_checkpoint_epochs
            [(0, GetResult.found), (3, GetResult.notFound)]).dropLast)) :=
  ⟨by decide, c1_gap_detection_shape _ (by decide)⟩

/-- C2 counterexample: with remote epochs `{0,1,3}` all carrying a valid
completion marker except epoch 3 whose marker is deleted, the detector
reports `[2, 3, 4]`; its first element is `2`, not `0` as the claim
states. -/
theorem c2_counterexample :
    find_all_missing_checkpoint_epochs
        [(0, GetResult.found), (1, GetResult.found), (3, GetResult.notFound)] = [2, 3, 4]
    ∧ (find_all_missing_checkpoint_epochs
        [(0, GetResult.found), (1, GetResult.found), (3, GetResult.notFound)]).head? ≠
        some 0 := by
  decide

/-- C2 amended: with remote epochs `{0,1,3}` and valid markers the first
missing epoch is `2`; after deleting epoch 3's completion marker the
first missing epoch is still `2` (the directory gap at `2` precedes the
now-incomplete epoch `3`, which is reported after it). -/
theorem c2_amended :
    (find_all_missing_checkpoint_epochs
        [(0, GetResult.found), (1, GetResult.found), (3, GetResult.found)]).head? = some 2
    ∧ (find_all_missing_checkpoint_epochs
        [(0, GetResult.found), (1, GetResult.found), (3, GetResult.notFound)]).head? = some 2
    ∧ find_all_missing_checkpoint_epochs
        [(0, GetResult.found), (1, GetResult.found), (3, GetResult.notFound)] = [2, 3, 4] := by
  decide

/-- C7 counterexample: remote epoch 0 present and fully synced (marker
found) — nothing is missing remotely, the list carries only the sentinel
— yet the gauge is set to `1`, not `0`. -/
theorem c7_counterexample :
    find_all_missing_checkpoint_epochs [(0, GetResult.found)] = [1]
    ∧ (find_all_missing_checkpoint_epochs [(0, GetResult.found)]).dropLast = []
    ∧ firstMissingGauge (find_all_missing_checkpoint_epochs [(0, GetResult.found)]) = 1
    ∧ firstMissingGauge (find_all_missing_checkpoint_epochs [(0, GetResult.found)]) ≠ 0 := by
  decide

/-- C7 amended: on a successful detection the gauge is set to the first
element of the returned list; when the remote index is empty that first
element is `0`, and when the remote index is contiguous from epoch 0 with
every completion marker present (nothing missing remotely) the first
element is the sentinel — the number of remote epochs — so the gauge
reads `0` only when the remote index is empty. -/
theorem c7_amended (l : List (Nat × GetResult))
    (hcont : keysOf l = List.range l.length)
    (hall : ∀ p ∈ l, p.2 = GetResult.found) :
    find_all_missing_checkpoint_epochs l = [l.length]
    ∧ firstMissingGauge (find_all_missing_checkpoint_epochs l) = (l.length : Int)
    ∧ (firstMissingGauge (find_all_missing_checkpoint_epochs l) = 0 ↔ l = []) := by
  have hrange : keysOf l = List.range' 0 l.length := by
    rw [hcont, List.range_eq_range']
  have h1 : find_all_missing_checkpoint_epochs l = [l.length] := by
    rw [find_all_missing_checkpoint_epochs, gapScan_contiguous_found hrange hall]
    simp
  refine ⟨h1, ?_, ?_⟩
  · rw [h1]
    simp [firstMissingGauge]
  · rw [h1]
    simp [firstMissingGauge, List.length_eq_zero]

/-- C7 amended witness: two contiguous, fully synced remote epochs. -/
theorem c7_amended_witness :
    keysOf [(0, GetResult.found), (1, GetResult.found)] =
      List.range [(0, GetResult.found), (1, GetResult.found)].length
    ∧ (find_all_missing_checkpoint_epochs [(0, GetResult.found), (1, GetResult.found)] =
        [[(0, GetResult.found), (1, GetResult.found)].length]
      ∧ firstMissingGauge (find_all_missing_checkpoint_epochs
          [(0, GetResult.found), (1, GetResult.found)]) =
          ([(0, GetResult.found), (1, GetResult.found)].length : Int)
      ∧ (firstMissingGauge (find_all_missing_checkpoint_epochs
          [(0, GetResult.found), (1, GetResult.found)]) = 0 ↔
          [(0, GetResult.found), (1, GetResult.found)] = [])) :=
  ⟨by decide, c7_amended _ (by decide) (by decide)⟩

/-! ### Epoch Directory Index (`read_checkpoint_dir`, lines 295-311)

Directory names are modelled as `List Char` (the character sequence of
the Rust `String`), so that the parser is computable by the kernel. -/

/-- The characters of the directory-name pattern `epoch_`. -/
def epochDirLead : List Char := ['e', 'p', 'o', 'c', 'h', '_']

/-- Rust `str::parse::<u32>`: an optional leading `+`, then one or more
ASCII digits, value within `u32` range; anything else is a parse error. -/
def parseU32 (s : List Char) : Option Nat :=
  let t := if s.take 1 = ['+'] then s.drop 1 else s
  if t.length > 0 && t.all Char.isDigit then
    let v := t.foldl (fun a c => a * 10 + (c.toNat - 48)) 0
    if v < 2 ^ 32 then some v else none
  else
    none

/-- `BTreeMap::insert` on a key-sorted association list: place the new
binding at its key position, replacing an existing binding for the same
key. -/
def insertAssoc {α : Type} : List (Nat × α) → Nat → α → List (Nat × α)
  | [], k, v => [(k, v)]
  | (k0, v0) :: rest, k, v =>
      if k < k0 then (k, v) :: (k0, v0) :: rest
      else if k = k0 then (k, v) :: rest
      else (k0, v0) :: insertAssoc rest k v

/-- The loop body of `read_checkpoint_dir`: skip names that do not start
with `epoch_`; for a name starting with `epoch_`, `split_once('_')`
yields the part after the first `_` — since the first five characters
are `epoch` and the sixth is `_`, that part is `n.drop 6` — which is
parsed as `u32`, a parse failure propagating; parsed entries are
inserted into the map keyed by epoch. -/
def read_checkpoint_dir_loop : List (List Char) → List (Nat × List Char) →
    Except String (List (Nat × List Char))
  | [], acc => Except.ok acc
  | n :: rest, acc =>
      if n.take 6 = epochDirLead then
        match parseU32 (n.drop 6) with
        | some e => read_checkpoint_dir_loop rest (insertAssoc acc e n)
        | none => Except.error "MalformedEpochName"
      else
        read_checkpoint_dir_loop rest acc

/-- `read_checkpoint_dir`: build the epoch → location map from the
store's immediate child names. -/
def read_checkpoint_dir (entries : List (List Char)) :
    Except String (List (Nat × List Char)) :=
  read_checkpoint_dir_loop entries []

example : read_checkpoint_dir
    [['e','p','o','c','h','_','3'], ['f','o','o'], ['e','p','o','c','h','_','0']] =
    Except.ok [(0, ['e','p','o','c','h','_','0']), (3, ['e','p','o','c','h','_','3'])] := rfl

example : read_checkpoint_dir [['e','p','o','c','h','_','3'], ['e','p','o','c','h','_','x']] =
    Except.error "MalformedEpochName" := rfl

example : parseU32 ['4','2','9','4','9','6','7','2','9','5'] = some 4294967295 := by decide

example : parseU32 ['4','2','9','4','9','6','7','2','9','6'] = none := by decide

example : parseU32 ['1','_','2'] = none := by decide


/-! ### Lemmas about sorted-map insertion -/

theorem insertAssoc_cons_lt {α : Type} {k k0 : Nat} {v v0 : α} {rest : List (Nat × α)}
    (h : k < k0) : insertAssoc ((k0, v0) :: rest) k v = (k, v) :: (k0, v0) :: rest := by
  rw [insertAssoc, if_pos h]

theorem insertAssoc_cons_eq {α : Type} {k : Nat} {v v0 : α} {rest : List (Nat × α)} :
    insertAssoc ((k, v0) :: rest) k v = (k, v) :: rest := by
  rw [insertAssoc, if_neg (by omega), if_pos rfl]

theorem insertAssoc_cons_gt {α : Type} {k k0 : Nat} {v v0 : α} {rest : List (Nat × α)}
    (h : k0 < k) : insertAssoc ((k0, v0) :: rest) k v = (k0, v0) :: insertAssoc rest k v := by
  rw [insertAssoc, if_neg (by omega), if_neg (by omega)]

theorem mem_keysOf_insertAssoc {α : Type} {l : List (Nat × α)} {k k' : Nat} {v : α} :
    k' ∈ keysOf (insertAssoc l k v) ↔ k' = k ∨ k' ∈ keysOf l := by
  induction l with
  | nil => simp [insertAssoc]
  | cons p rest ih =>
      obtain ⟨k0, v0⟩ := p
      rcases Nat.lt_trichotomy k k0 with h1 | h1 | h1
      · rw [insertAssoc_cons_lt h1]
        simp
      · subst h1
        rw [insertAssoc_cons_eq]
        simp only [keysOf_cons, List.mem_cons]
        tauto
      · rw [insertAssoc_cons_gt h1]
        simp only [keysOf_cons, List.mem_cons, ih]
        tauto

theorem mem_insertAssoc {α : Type} {l : List (Nat × α)} {k : Nat} {v : α} {p : Nat × α}
    (hp : p ∈ insertAssoc l k v) : p = (k, v) ∨ p ∈ l := by
  induction l with
  | nil => simpa [insertAssoc] using hp
  | cons q rest ih =>
      obtain ⟨k0, v0⟩ := q
      rcases Nat.lt_trichotomy k k0 with h1 | h1 | h1
      · rw [insertAssoc_cons_lt h1] at hp
        rcases List.mem_cons.mp hp with h | h
        · exact Or.inl h
        · exact Or.inr h
      · subst h1
        rw [insertAssoc_cons_eq] at hp
        rcases List.mem_cons.mp hp with h | h
        · exact Or.inl h
        · exact Or.inr (List.mem_cons_of_mem _ h)
      · rw [insertAssoc_cons_gt h1] at hp
        rcases List.mem_cons.mp hp with h | h
        · exact Or.inr (by simp [h])
        · rcases ih h with h3 | h3
          · exact Or.inl h3
          · exact Or.inr (List.mem_cons_of_mem _ h3)

theorem insertAssoc_pairwise {α : Type} {l : List (Nat × α)} {k : Nat} {v : α}
    (hs : (keysOf l).Pairwise (· < ·)) :
    (keysOf (insertAssoc l k v)).Pairwise (· < ·) := by
  induction l with
  | nil => simp [insertAssoc]
  | cons p rest ih =>
      obtain ⟨k0, v0⟩ := p
      obtain ⟨hhd, hs'⟩ := List.pairwise_cons.mp hs
      rcases Nat.lt_trichotomy k k0 with h1 | h1 | h1
      · rw [insertAssoc_cons_lt h1]
        simp only [keysOf_cons]
        refine List.pairwise_cons.mpr ⟨?_, hs⟩
        intro a ha
        rcases List.mem_cons.mp ha with h | h
        · omega
        · have := hhd a h
          omega
      · subst h1
        rw [insertAssoc_cons_eq]
        simp only [keysOf_cons]
        exact List.pairwise_cons.mpr ⟨hhd, hs'⟩
      · rw [insertAssoc_cons_gt h1]
        simp only [keysOf_cons]
        refine List.pairwise_cons.mpr ⟨?_, ih hs'⟩
        intro a ha
        rcases mem_keysOf_insertAssoc.mp ha with h | h
        · omega
        · exact hhd a h

/-! ### Claim theorems about the epoch directory index -/

/-- Skipping is local to the loop: a non-`epoch_` name contributes
nothing, whatever the accumulated map. -/
theorem read_checkpoint_dir_loop_skip (pre post : List (List Char)) (n : List Char)
    (hn : ¬n.take 6 = epochDirLead) (acc : List (Nat × List Char)) :
    read_checkpoint_dir_loop (pre ++ n :: post) acc =
    read_checkpoint_dir_loop (pre ++ post) acc := by
  induction pre generalizing acc with
  | nil =>
      simp only [List.nil_append, read_checkpoint_dir_loop, if_neg hn]
  | cons q qs ih =>
      simp only [List.cons_append, read_checkpoint_dir_loop]
      by_cases hq : q.take 6 = epochDirLead
      · rw [if_pos hq, if_pos hq]
        cases parseU32 (q.drop 6) with
        | none => rfl
        | some e => exact ih _
      · rw [if_neg hq, if_neg hq]
        exact ih _

/-- A malformed `epoch_` name anywhere in the listing makes the loop
fail. -/
theorem read_checkpoint_dir_loop_err {entries : List (List Char)} {n : List Char}
    (hmem : n ∈ entries) (hn : n.take 6 = epochDirLead) (hp : parseU32 (n.drop 6) = none)
    (acc : List (Nat × List Char)) :
    ∃ msg, read_checkpoint_dir_loop entries acc = Except.error msg := by
  induction entries generalizing acc with
  | nil => cases hmem
  | cons q qs ih =>
      simp only [read_checkpoint_dir_loop]
      rcases List.mem_cons.mp hmem with h | h
      · subst h
        rw [if_pos hn, hp]
        exact ⟨_, rfl⟩
      · by_cases hq : q.take 6 = epochDirLead
        · rw [if_pos hq]
          cases parseU32 (q.drop 6) with
          | none => exact ⟨_, rfl⟩
          | some e => exact ih h _
        · rw [if_neg hq]
          exact ih h _

/-- Success invariant of the loop: ascending unique keys and each entry
keyed by the parse of its own name. -/
theorem read_checkpoint_dir_loop_ok {entries : List (List Char)}
    {acc m : List (Nat × List Char)}
    (hacc1 : (keysOf acc).Pairwise (· < ·))
    (hacc2 : ∀ p ∈ acc, p.2.take 6 = epochDirLead ∧ parseU32 (p.2.drop 6) = some p.1)
    (hok : read_checkpoint_dir_loop entries acc = Except.ok m) :
    (keysOf m).Pairwise (· < ·)
    ∧ ∀ p ∈ m, p.2.take 6 = epochDirLead ∧ parseU32 (p.2.drop 6) = some p.1 := by
  induction entries generalizing acc with
  | nil =>
      simp only [read_checkpoint_dir_loop] at hok
      injection hok with hok
      subst hok
      exact ⟨hacc1, hacc2⟩
  | cons q qs ih =>
      simp only [read_checkpoint_dir_loop] at hok
      by_cases hq : q.take 6 = epochDirLead
      · rw [if_pos hq] at hok
        cases hpq : parseU32 (q.drop 6) with
        | none =>
            rw [hpq] at hok
            cases hok
        | some e =>
            rw [hpq] at hok
            refine ih (insertAssoc_pairwise hacc1) ?_ hok
            intro p hp
            rcases mem_insertAssoc hp with h | h
            · subst h
              exact ⟨hq, hpq⟩
            · exact hacc2 p h
      · rw [if_neg hq] at hok
        exact ih hacc1 hacc2 hok

/-- C8: names without the `epoch_` prefix are silently skipped; a name
with the prefix whose suffix does not parse as `u32` fails the whole
call with a propagated error; on success the map has strictly ascending
(hence unique) epoch keys and each entry is keyed by the numeric suffix
of its own `epoch_<digits>` location. -/
theorem c8_read_checkpoint_dir (entries : List (List Char)) :
    (∀ pre post n, ¬n.take 6 = epochDirLead → entries = pre ++ n :: post →
        read_checkpoint_dir entries = read_checkpoint_dir (pre ++ post))
    ∧ ((∃ n ∈ entries, n.take 6 = epochDirLead ∧ parseU32 (n.drop 6) = none) →
        ∃ msg, read_checkpoint_dir entries = Except.error msg)
    ∧ (∀ m, read_checkpoint_dir entries = Except.ok m →
        (keysOf m).Pairwise (· < ·)
        ∧ ∀ p ∈ m, p.2.take 6 = epochDirLead ∧ parseU32 (p.2.drop 6) = some p.1) := by
  refine ⟨?_, ?_, ?_⟩
  · intro pre post n hn hsplit
    rw [hsplit]
    exact read_checkpoint_dir_loop_skip pre post n hn []
  · rintro ⟨n, hmem, hn, hp⟩
    exact read_checkpoint_dir_loop_err hmem hn hp []
  · intro m hok
    exact read_checkpoint_dir_loop_ok (by simp) (by simp) hok

/-- C8 witness: a listing with a stray name, an `epoch_2` and an
`epoch_0`; and separately a malformed `epoch_x` listing. -/
theorem c8_read_checkpoint_dir_witness :
    (read_checkpoint_dir [['f','o','o'], ['e','p','o','c','h','_','2']] =
      read_checkpoint_dir [['e','p','o','c','h','_','2']])
    ∧ (∃ msg, read_checkpoint_dir [['e','p','o','c','h','_','x']] = Except.error msg)
    ∧ ((keysOf [(2, ['e','p','o','c','h','_','2'])]).Pairwise (· < ·)
      ∧ ∀ p ∈ [(2, ['e','p','o','c','h','_','2'])],
          p.2.take 6 = epochDirLead ∧ parseU32 (p.2.drop 6) = some p.1) :=
  ⟨(c8_read_checkpoint_dir [['f','o','o'], ['e','p','o','c','h','_','2']]).1
      [] [['e','p','o','c','h','_','2']] ['f','o','o'] (by decide) rfl,
   (c8_read_checkpoint_dir [['e','p','o','c','h','_','x']]).2.1
      ⟨['e','p','o','c','h','_','x'], by decide, by decide, by decide⟩,
   (c8_read_checkpoint_dir [['e','p','o','c','h','_','2']]).2.2
      [(2, ['e','p','o','c','h','_','2'])] (by rfl)⟩

/-! ### C4: error taxonomy of the marker reads during gap detection -/

/-- The full detection call: build the remote epoch index from the
listing (fallible), then run the scan, pairing each remote epoch with
the outcome `res` of reading its `SUCCESS_MARKER`.  The scan itself has
no failure path: marker-read errors are only matched, never
propagated. -/
def find_all_missing_from_listing (entries : List (List Char)) (res : Nat → GetResult) :
    Except String (List Nat) :=
  (read_checkpoint_dir entries).map
    (fun m => gapScan (m.map (fun p => (p.1, res p.1))) 0)

/-- C4: for a remote epoch whose directory exists, a definite `NotFound`
on the marker read puts the epoch in the missing list; any other read
error leaves it out, as does a successful read; the final counter (the
list's last element) depends only on the epochs present, not on any
read outcome; and the detection call as a whole succeeds whenever the
listing parse succeeded, whatever the read outcomes. -/
theorem c4_marker_read_taxonomy (l : List (Nat × GetResult))
    (hs : (keysOf l).Pairwise (· < ·)) :
    (∀ e, (e, GetResult.notFound) ∈ l → e ∈ find_all_missing_checkpoint_epochs l)
    ∧ (∀ e, (e, GetResult.otherErr) ∈ l → e ∉ find_all_missing_checkpoint_epochs l)
    ∧ (∀ e, (e, GetResult.found) ∈ l → e ∉ find_all_missing_checkpoint_epochs l)
    ∧ (∀ l2 : List (Nat × GetResult), keysOf l2 = keysOf l →
        (find_all_missing_checkpoint_epochs l2).getLast? =
        (find_all_missing_checkpoint_epochs l).getLast?)
    ∧ (∀ entries res m, read_checkpoint_dir entries = Except.ok m →
        find_all_missing_from_listing entries res =
          Except.ok (gapScan (m.map (fun p => (p.1, res p.1))) 0)) := by
  have hlb : ∀ k ∈ keysOf l, 0 ≤ k := fun k _ => Nat.zero_le k
  refine ⟨?_, ?_, ?_, ?_, ?_⟩
  · intro e he
    exact mem_gapScan_of_notFound he 0
  · intro e he hmem
    have hkey : e ∈ keysOf l := List.mem_map_of_mem Prod.fst he
    rcases mem_gapScan_cases hs hlb hmem with h | h | h
    · have := lt_sentinelFrom_of_mem_keys hkey 0
      omega
    · exact h hkey
    · have := assoc_value_unique hs he h
      cases this
  · intro e he hmem
    have hkey : e ∈ keysOf l := List.mem_map_of_mem Prod.fst he
    rcases mem_gapScan_cases hs hlb hmem with h | h | h
    · have := lt_sentinelFrom_of_mem_keys hkey 0
      omega
    · exact h hkey
    · have := assoc_value_unique hs he h
      cases this
  · intro l2 hkeys
    rw [find_all_missing_checkpoint_epochs, find_all_missing_checkpoint_epochs,
      gapScan_getLast?, gapScan_getLast?, sentinelFrom_eq_keys_foldl,
      sentinelFrom_eq_keys_foldl, hkeys]
  · intro entries res m hok
    rw [find_all_missing_from_listing, hok]
    rfl

/-- C4 witness: remote epochs 0 (marker present), 1 (ambiguous read
error) and 3 (marker definitely absent). -/
theorem c4_marker_read_taxonomy_witness :
    ((keysOf [(0, GetResult.found), (1, GetResult.otherErr), (3, GetResult.notFound)]).Pairwise
      (· < ·))
    ∧ 3 ∈ find_all_missing_checkpoint_epochs
        [(0, GetResult.found), (1, GetResult.otherErr), (3, GetResult.notFound)]
    ∧ 1 ∉ find_all_missing_checkpoint_epochs
        [(0, GetResult.found), (1, GetResult.otherErr), (3, GetResult.notFound)]
    ∧ 0 ∉ find_all_missing_checkpoint_epochs
        [(0, GetResult.found), (1, GetResult.otherErr), (3, GetResult.notFound)]
    ∧ (find_all_missing_checkpoint_epochs
        [(0, GetResult.found), (1, GetResult.otherErr), (3, GetResult.notFound)]).getLast? =
      (find_all_missing_checkpoint_epochs
        [(0, GetResult.found), (1, GetResult.found), (3, GetResult.found)]).getLast? :=
  ⟨by decide,
   (c4_marker_read_taxonomy _ (by decide)).1 3 (by decide),
   (c4_marker_read_taxonomy _ (by decide)).2.1 1 (by decide),
   (c4_marker_read_taxonomy _ (by decide)).2.2.1 0 (by decide),
   ((c4_marker_read_taxonomy
      [(0, GetResult.found), (1, GetResult.found), (3, GetResult.found)]
      (by decide)).2.2.2.1
      [(0, GetResult.found), (1, GetResult.otherErr), (3, GetResult.notFound)]
      (by decide))⟩

/-! ### Archival Uploader (`upload_db_checkpoints_to_object_store`, lines 218-261)

The object stores are modelled by their observable contents: an epoch →
directory-content map (the `BTreeMap` obtained by `read_checkpoint_dir`,
key-sorted) plus the set of epochs whose marker object exists.  Directory
content is opaque (`α`): `copy_recursively` is the external collaborator
that transfers it wholesale. -/

/-- The remote store: checkpoint directory contents by epoch, and the
set of epochs whose `SUCCESS_MARKER` object exists. -/
structure RemoteStore (α : Type) where
  dirs : List (Nat × α)
  markers : List Nat
deriving DecidableEq, Repr

/-- The local store: checkpoint directory contents by epoch, and the
set of epochs whose `UPLOAD_COMPLETED_MARKER` object exists. -/
structure LocalStore (α : Type) where
  dirs : List (Nat × α)
  markers : List Nat
deriving DecidableEq, Repr

/-- `put` of a fixed-content marker object: present afterwards; writing
an already-present marker rewrites the same bytes, leaving the store
unchanged. -/
def putMarker (l : List Nat) (e : Nat) : List Nat :=
  if l.contains e then l else l ++ [e]

/-- One externally visible effect of the uploader's loop body. -/
inductive UploadEvent where
  | pruneEv (e : Nat)
  | copyEv (e : Nat)
  | remoteMarkerEv (e : Nat)
  | localMarkerEv (e : Nat)
deriving DecidableEq, Repr

/-- The uploader's per-epoch selection test (line 226):
`missing_epochs.contains(epoch) || *epoch >= last_missing_epoch`. -/
def selectedForUpload (missing : List Nat) (boundary e : Nat) : Bool :=
  missing.contains e || decide (boundary ≤ e)

/-- The uploader's loop (lines 225-259) as a state transformer: for each
local `(epoch, content)` in ascending order, if selected, copy the local
directory content to the remote store and put the remote
`SUCCESS_MARKER`; always put the local `UPLOAD_COMPLETED_MARKER`.
`dirs` is the snapshot of the local index the loop iterates over. -/
def uploadLoop {α : Type} (missing : List Nat) (boundary : Nat) :
    List (Nat × α) → LocalStore α → RemoteStore α → LocalStore α × RemoteStore α
  | [], loc, rem => (loc, rem)
  | (e, content) :: rest, loc, rem =>
      let rem2 := if selectedForUpload missing boundary e then
          { dirs := insertAssoc rem.dirs e content, markers := putMarker rem.markers e }
        else rem
      let loc2 : LocalStore α := { dirs := loc.dirs, markers := putMarker loc.markers e }
      uploadLoop missing boundary rest loc2 rem2

/-- The same loop as its trace of effects: prune (when configured), copy
and remote marker put for selected epochs; the local marker put for
every iterated epoch. -/
def uploadEventsFor {α : Type} (pruneFlag : Bool) (missing : List Nat) (boundary : Nat) :
    List (Nat × α) → List UploadEvent
  | [] => []
  | (e, _) :: rest =>
      (if selectedForUpload missing boundary e then
        (if pruneFlag then [UploadEvent.pruneEv e] else [])
          ++ [UploadEvent.copyEv e, UploadEvent.remoteMarkerEv e]
      else [])
      ++ (UploadEvent.localMarkerEv e :: uploadEventsFor pruneFlag missing boundary rest)

/-- `upload_db_checkpoints_to_object_store`: `last_missing_epoch` is
`missing_epochs.last().cloned().unwrap_or(0)` (line 219); the loop runs
over the local epoch index in ascending order.  Returns the final
(local, remote) stores and the effect trace of the error-free cycle. -/
def upload_db_checkpoints_to_object_store {α : Type} (pruneFlag : Bool)
    (missing : List Nat) (loc : LocalStore α) (rem : RemoteStore α) :
    (LocalStore α × RemoteStore α) × List UploadEvent :=
  let boundary := missing.getLast?.getD 0
  (uploadLoop missing boundary loc.dirs loc rem,
   uploadEventsFor pruneFlag missing boundary loc.dirs)

example :
    (upload_db_checkpoints_to_object_store false [2, 4]
      (LocalStore.mk [(0, "c0"), (2, "c2"), (4, "c4")] [])
      (RemoteStore.mk [(0, "c0"), (1, "c1"), (3, "c3")] [0, 1, 3])).2 =
    [UploadEvent.localMarkerEv 0,
     UploadEvent.copyEv 2, UploadEvent.remoteMarkerEv 2, UploadEvent.localMarkerEv 2,
     UploadEvent.copyEv 4, UploadEvent.remoteMarkerEv 4, UploadEvent.localMarkerEv 4] := by
  decide

/-- Membership in the trace, by selection status. -/
theorem uploadEventsFor_mem {α : Type} (pruneFlag : Bool) (missing : List Nat)
    (boundary : Nat) (dirs : List (Nat × α)) (e : Nat) :
    (UploadEvent.copyEv e ∈ uploadEventsFor pruneFlag missing boundary dirs ↔
      e ∈ keysOf dirs ∧ selectedForUpload missing boundary e = true)
    ∧ (UploadEvent.remoteMarkerEv e ∈ uploadEventsFor pruneFlag missing boundary dirs ↔
      e ∈ keysOf dirs ∧ selectedForUpload missing boundary e = true)
    ∧ (UploadEvent.pruneEv e ∈ uploadEventsFor pruneFlag missing boundary dirs ↔
      pruneFlag = true ∧ e ∈ keysOf dirs ∧ selectedForUpload missing boundary e = true)
    ∧ (UploadEvent.localMarkerEv e ∈ uploadEventsFor pruneFlag missing boundary dirs ↔
      e ∈ keysOf dirs) := by
  induction dirs with
  | nil => simp [uploadEventsFor]
  | cons p rest ih =>
      obtain ⟨k, c⟩ := p
      obtain ⟨ih1, ih2, ih3, ih4⟩ := ih
      by_cases he : e = k
      · subst he
        by_cases hsel : selectedForUpload missing boundary e = true <;>
          cases pruneFlag <;>
            simp_all [uploadEventsFor]
      · by_cases hsel : selectedForUpload missing boundary k = true <;>
          cases pruneFlag <;>
            simp_all [uploadEventsFor, he]

theorem putMarker_mem {l : List Nat} {x e : Nat} :
    x ∈ putMarker l e ↔ x = e ∨ x ∈ l := by
  by_cases h : l.contains e
  · have he : e ∈ l := by simpa using h
    simp only [putMarker, if_pos h]
    constructor
    · exact Or.inr
    · rintro (h1 | h1)
      · exact h1 ▸ he
      · exact h1
  · simp only [putMarker, if_neg h, List.mem_append, List.mem_singleton]
    tauto

/-- The loop never touches the local directory index, only its
markers. -/
theorem uploadLoop_local_dirs_eq {α : Type} (missing : List Nat) (boundary : Nat)
    (dirs : List (Nat × α)) (loc : LocalStore α) (rem : RemoteStore α) :
    (uploadLoop missing boundary dirs loc rem).1.dirs = loc.dirs := by
  induction dirs generalizing loc rem with
  | nil => rfl
  | cons p rest ih =>
      obtain ⟨k, c⟩ := p
      simp only [uploadLoop]
      rw [ih]

/-- After the loop, the local `UPLOAD_COMPLETED_MARKER` set is the old
one plus every iterated epoch. -/
theorem uploadLoop_local_markers {α : Type} (missing : List Nat) (boundary : Nat)
    (dirs : List (Nat × α)) (loc : LocalStore α) (rem : RemoteStore α) (e : Nat) :
    e ∈ (uploadLoop missing boundary dirs loc rem).1.markers ↔
      e ∈ loc.markers ∨ e ∈ keysOf dirs := by
  induction dirs generalizing loc rem with
  | nil => simp [uploadLoop]
  | cons p rest ih =>
      obtain ⟨k, c⟩ := p
      simp only [uploadLoop, ih, putMarker_mem, keysOf_cons, List.mem_cons]
      tauto

/-- C3: with `boundary` the last element of the missing-epoch list, a
local epoch triggers a copy (and the remote completion-marker write, and
the prune when configured) if and only if it is a local epoch and either
appears in the missing list or is at least `boundary`; in particular a
non-selected local epoch triggers no copy and no remote marker write. -/
theorem c3_upload_selection {α : Type} (pruneFlag : Bool) (missing : List Nat)
    (loc : LocalStore α) (rem : RemoteStore α) (b : Nat)
    (hb : missing.getLast? = some b) (e : Nat) :
    (UploadEvent.copyEv e ∈
        (upload_db_checkpoints_to_object_store pruneFlag missing loc rem).2 ↔
      e ∈ keysOf loc.dirs ∧ (e ∈ missing ∨ b ≤ e))
    ∧ (UploadEvent.remoteMarkerEv e ∈
        (upload_db_checkpoints_to_object_store pruneFlag missing loc rem).2 ↔
      e ∈ keysOf loc.dirs ∧ (e ∈ missing ∨ b ≤ e))
    ∧ (pruneFlag = true →
      (UploadEvent.pruneEv e ∈
          (upload_db_checkpoints_to_object_store pruneFlag missing loc rem).2 ↔
        e ∈ keysOf loc.dirs ∧ (e ∈ missing ∨ b ≤ e))) := by
  have hsel : ∀ x, selectedForUpload missing (missing.getLast?.getD 0) x = true ↔
      x ∈ missing ∨ b ≤ x := by
    intro x
    rw [hb]
    simp [selectedForUpload]
  obtain ⟨h1, h2, h3, h4⟩ := uploadEventsFor_mem pruneFlag missing
    (missing.getLast?.getD 0) loc.dirs e
  refine ⟨?_, ?_, ?_⟩
  · rw [upload_db_checkpoints_to_object_store]
    simp only [h1, hsel]
  · rw [upload_db_checkpoints_to_object_store]
    simp only [h2, hsel]
  · intro hp
    subst hp
    rw [upload_db_checkpoints_to_object_store]
    simp only [h3, hsel, true_and]

/-- C3 witness: missing list `[2, 4]` (boundary 4), local epochs 0, 2
and 4; epoch 2 is in the missing list, epoch 0 is not selected. -/
theorem c3_upload_selection_witness :
    ([2, 4] : List Nat).getLast? = some 4
    ∧ (UploadEvent.copyEv 2 ∈
        (upload_db_checkpoints_to_object_store true [2, 4]
          (LocalStore.mk [(0, 10), (2, 12), (4, 14)] []) (RemoteStore.mk [] [])).2 ↔
      2 ∈ keysOf [(0, 10), (2, 12), (4, 14)] ∧ (2 ∈ ([2, 4] : List Nat) ∨ 4 ≤ 2))
    ∧ (UploadEvent.copyEv 0 ∈
        (upload_db_checkpoints_to_object_store true [2, 4]
          (LocalStore.mk [(0, 10), (2, 12), (4, 14)] []) (RemoteStore.mk [] [])).2 ↔
      0 ∈ keysOf [(0, 10), (2, 12), (4, 14)] ∧ (0 ∈ ([2, 4] : List Nat) ∨ 4 ≤ 0)) :=
  ⟨by decide,
   (c3_upload_selection true [2, 4] (LocalStore.mk [(0, 10), (2, 12), (4, 14)] [])
      (RemoteStore.mk [] []) 4 (by decide) 2).1,
   (c3_upload_selection true [2, 4] (LocalStore.mk [(0, 10), (2, 12), (4, 14)] [])
      (RemoteStore.mk [] []) 4 (by decide) 0).1⟩

/-- C5: in an error-free cycle the uploader writes the local
`UPLOAD_COMPLETED_MARKER` for every local epoch it iterates over,
whether or not the epoch was selected: the put appears in the trace and
the marker is present in the final local store. -/
theorem c5_local_marker_always {α : Type} (pruneFlag : Bool) (missing : List Nat)
    (loc : LocalStore α) (rem : RemoteStore α) (e : Nat) (he : e ∈ keysOf loc.dirs) :
    UploadEvent.localMarkerEv e ∈
      (upload_db_checkpoints_to_object_store pruneFlag missing loc rem).2
    ∧ e ∈ (upload_db_checkpoints_to_object_store pruneFlag missing loc rem).1.1.markers := by
  constructor
  · rw [upload_db_checkpoints_to_object_store]
    exact (uploadEventsFor_mem pruneFlag missing (missing.getLast?.getD 0) loc.dirs e).2.2.2.mpr he
  · rw [upload_db_checkpoints_to_object_store]
    exact (uploadLoop_local_markers missing (missing.getLast?.getD 0) loc.dirs loc rem e).mpr
      (Or.inr he)

/-- C5 witness: local epoch 0 is not selected (missing `[2, 3]`, all
local epochs below the boundary) yet gets its local marker. -/
theorem c5_local_marker_always_witness :
    0 ∈ keysOf [(0, 10), (1, 11)]
    ∧ (UploadEvent.localMarkerEv 0 ∈
        (upload_db_checkpoints_to_object_store false [2, 3]
          (LocalStore.mk [(0, 10), (1, 11)] []) (RemoteStore.mk [(0, 10), (1, 11)] [0, 1])).2
      ∧ 0 ∈ (upload_db_checkpoints_to_object_store false [2, 3]
          (LocalStore.mk [(0, 10), (1, 11)] [])
          (RemoteStore.mk [(0, 10), (1, 11)] [0, 1])).1.1.markers) :=
  ⟨by decide,
   c5_local_marker_always false [2, 3] (LocalStore.mk [(0, 10), (1, 11)] [])
     (RemoteStore.mk [(0, 10), (1, 11)] [0, 1]) 0 (by decide)⟩

/-- C10: with an empty missing-epoch list, `last().cloned().unwrap_or(0)`
makes the boundary 0, every local epoch passes the `epoch >= boundary`
test, and so every local epoch is selected for (re)upload. -/
theorem c10_empty_missing_selects_all {α : Type} (pruneFlag : Bool)
    (loc : LocalStore α) (rem : RemoteStore α) (e : Nat) (he : e ∈ keysOf loc.dirs) :
    (([] : List Nat).getLast?.getD 0 = 0)
    ∧ selectedForUpload [] 0 e = true
    ∧ UploadEvent.copyEv e ∈
        (upload_db_checkpoints_to_object_store pruneFlag [] loc rem).2
    ∧ UploadEvent.remoteMarkerEv e ∈
        (upload_db_checkpoints_to_object_store pruneFlag [] loc rem).2 := by
  have hsel : selectedForUpload [] 0 e = true := by
    simp [selectedForUpload]
  obtain ⟨h1, h2, h3, h4⟩ := uploadEventsFor_mem pruneFlag ([] : List Nat)
    (([] : List Nat).getLast?.getD 0) loc.dirs e
  refine ⟨rfl, hsel, ?_, ?_⟩
  · rw [upload_db_checkpoints_to_object_store]
    exact h1.mpr ⟨he, hsel⟩
  · rw [upload_db_checkpoints_to_object_store]
    exact h2.mpr ⟨he, hsel⟩

/-- C10 witness: two local epochs, both re-uploaded. -/
theorem c10_empty_missing_selects_all_witness :
    7 ∈ keysOf [(5, 15), (7, 17)]
    ∧ ((([] : List Nat).getLast?.getD 0 = 0)
      ∧ selectedForUpload [] 0 7 = true
      ∧ UploadEvent.copyEv 7 ∈
          (upload_db_checkpoints_to_object_store false []
            (LocalStore.mk [(5, 15), (7, 17)] []) (RemoteStore.mk [(5, 15)] [5])).2
      ∧ UploadEvent.remoteMarkerEv 7 ∈
          (upload_db_checkpoints_to_object_store false []
            (LocalStore.mk [(5, 15), (7, 17)] []) (RemoteStore.mk [(5, 15)] [5])).2) :=
  ⟨by decide,
   c10_empty_missing_selects_all false (LocalStore.mk [(5, 15), (7, 17)] [])
     (RemoteStore.mk [(5, 15)] [5]) 7 (by decide)⟩

/-! ### Retention Garbage Collector (`garbage_collect_old_db_checkpoints`, lines 262-294)

`markerOk e` models whether `try_join_all` over the reads of all
configured `gc_markers` for epoch `e` returns `Ok` (it fails as soon as
any single marker read fails, absence included); `deleteOk e` models
whether the `path_to_filesystem` translation and `fs::remove_dir_all`
call for epoch `e` succeed.  Both are deterministic for one pass. -/

/-- Result of one GC pass: the epochs reported deleted and the surviving
local index; `failed` is the early `Err` return from a failed delete,
which drops the report but keeps the deletions already performed. -/
inductive GcOutcome (α : Type) where
  | ok (deleted : List Nat) (loc : List (Nat × α))
  | failed (deleted : List Nat) (loc : List (Nat × α))
deriving Repr

/-- The surviving local index of a GC outcome. -/
def GcOutcome.state {α : Type} : GcOutcome α → List (Nat × α)
  | .ok _ st => st
  | .failed _ st => st

/-- `fs::remove_dir_all` on the epoch directory: the epoch disappears
from the local index. -/
def removeDir {α : Type} (st : List (Nat × α)) (e : Nat) : List (Nat × α) :=
  st.filter (fun p => !(p.1 == e))

/-- The GC loop (lines 267-292): for each epoch of the local index in
ascending order, read all configured markers; if all reads succeed,
report the epoch and delete its directory, a delete failure aborting the
pass; otherwise leave the directory untouched. -/
def gcLoop {α : Type} (markerOk deleteOk : Nat → Bool) :
    List (Nat × α) → List (Nat × α) → GcOutcome α
  | [], st => GcOutcome.ok [] st
  | (e, _) :: rest, st =>
      if markerOk e then
        if deleteOk e then
          match gcLoop markerOk deleteOk rest (removeDir st e) with
          | GcOutcome.ok ds st2 => GcOutcome.ok (e :: ds) st2
          | GcOutcome.failed ds st2 => GcOutcome.failed (e :: ds) st2
        else GcOutcome.failed [] st
      else gcLoop markerOk deleteOk rest st

/-- `garbage_collect_old_db_checkpoints`: run the loop over the local
epoch index. -/
def garbage_collect_old_db_checkpoints {α : Type} (markerOk deleteOk : Nat → Bool)
    (loc : LocalStore α) : GcOutcome α :=
  gcLoop markerOk deleteOk loc.dirs loc.dirs

/-- A GC pass never adds entries to the local index. -/
theorem gcLoop_state_subset {α : Type} (markerOk deleteOk : Nat → Bool)
    (toProcess : List (Nat × α)) (st : List (Nat × α)) :
    ∀ p ∈ (gcLoop markerOk deleteOk toProcess st).state, p ∈ st := by
  induction toProcess generalizing st with
  | nil => simp [gcLoop, GcOutcome.state]
  | cons q rest ih =>
      obtain ⟨e, c⟩ := q
      intro p hp
      simp only [gcLoop] at hp
      by_cases hm : markerOk e
      · rw [if_pos hm] at hp
        by_cases hd : deleteOk e
        · rw [if_pos hd] at hp
          have hsub : ∀ x ∈ (gcLoop markerOk deleteOk rest (removeDir st e)).state,
              x ∈ st := by
            intro x hx
            have := ih (removeDir st e) x hx
            exact List.mem_of_mem_filter this
          cases hrec : gcLoop markerOk deleteOk rest (removeDir st e) with
          | ok ds st2 =>
              rw [hrec] at hp
              simp only [GcOutcome.state] at hp
              exact hsub p (by rw [hrec]; exact hp)
          | failed ds st2 =>
              rw [hrec] at hp
              simp only [GcOutcome.state] at hp
              exact hsub p (by rw [hrec]; exact hp)
        · rw [if_neg hd] at hp
          simpa [GcOutcome.state] using hp
      · rw [if_neg hm] at hp
        exact ih st p hp

/-- When no delete fails, a GC pass deletes exactly the epochs whose
marker reads all succeed and leaves every other entry untouched. -/
theorem gcLoop_ok_no_delete_failure {α : Type} (markerOk deleteOk : Nat → Bool)
    (toProcess : List (Nat × α)) (st : List (Nat × α))
    (h : ∀ e ∈ keysOf toProcess, markerOk e = true → deleteOk e = true) :
    gcLoop markerOk deleteOk toProcess st =
      GcOutcome.ok ((keysOf toProcess).filter markerOk)
        (st.filter (fun p => !(markerOk p.1 && (keysOf toProcess).contains p.1))) := by
  induction toProcess generalizing st with
  | nil => simp [gcLoop]
  | cons q rest ih =>
      obtain ⟨e, c⟩ := q
      simp only [gcLoop, keysOf_cons]
      by_cases hm : markerOk e
      · have hd : deleteOk e = true := h e (by simp) hm
        rw [if_pos hm, if_pos hd,
          ih (removeDir st e) (fun x hx hmx => h x (by simp [hx]) hmx)]
        have hkeys : (e :: keysOf rest).filter markerOk =
            e :: (keysOf rest).filter markerOk := by
          rw [List.filter_cons_of_pos hm]
        rw [hkeys]
        have hstates : (removeDir st e).filter
              (fun p => !(markerOk p.1 && (keysOf rest).contains p.1)) =
            st.filter (fun p => !(markerOk p.1 && (e :: keysOf rest).contains p.1)) := by
          rw [removeDir, List.filter_filter]
          apply List.filter_congr
          intro p hp
          by_cases hpe : p.1 = e <;> simp [hpe, hm]
        rw [hstates]
      · rw [if_neg hm, ih st (fun x hx hmx => h x (by simp [hx]) hmx)]
        have hkeys : (e :: keysOf rest).filter markerOk =
            (keysOf rest).filter markerOk := by
          rw [List.filter_cons_of_neg (by simp [hm])]
        rw [hkeys]
        have hstates : st.filter
              (fun p => !(markerOk p.1 && (keysOf rest).contains p.1)) =
            st.filter (fun p => !(markerOk p.1 && (e :: keysOf rest).contains p.1)) := by
          apply List.filter_congr
          intro p hp
          by_cases hpe : p.1 = e <;> simp [hpe, hm]
        rw [hstates]

/-- When the pass fails, some epoch with all markers present failed its
delete; everything reported before the failure had its markers present
and is gone from the surviving index; everything not reported survives
untouched. -/
theorem gcLoop_failed_cases {α : Type} (markerOk deleteOk : Nat → Bool)
    (toProcess : List (Nat × α)) (st : List (Nat × α)) (ds : List Nat)
    (st2 : List (Nat × α))
    (h : gcLoop markerOk deleteOk toProcess st = GcOutcome.failed ds st2) :
    (∃ f ∈ keysOf toProcess, markerOk f = true ∧ deleteOk f = false)
    ∧ (∀ x ∈ ds, markerOk x = true ∧ x ∈ keysOf toProcess ∧ x ∉ keysOf st2)
    ∧ (∀ p ∈ st, p.1 ∉ ds → p ∈ st2) := by
  induction toProcess generalizing st ds with
  | nil => simp [gcLoop] at h
  | cons q rest ih =>
      obtain ⟨e, c⟩ := q
      simp only [gcLoop] at h
      by_cases hm : markerOk e
      · rw [if_pos hm] at h
        by_cases hd : deleteOk e
        · rw [if_pos hd] at h
          cases hrec : gcLoop markerOk deleteOk rest (removeDir st e) with
          | ok ds' st2' =>
              rw [hrec] at h
              cases h
          | failed ds' st2' =>
              rw [hrec] at h
              injection h with h1 h2
              subst h2
              subst h1
              obtain ⟨⟨f, hf1, hf2, hf3⟩, hrep, hsurv⟩ := ih (removeDir st e) ds' hrec
              have hnotin : e ∉ keysOf st2' := by
                intro hmem
                obtain ⟨p, hp, hpe⟩ := List.mem_map.mp hmem
                have hp' := gcLoop_state_subset markerOk deleteOk rest (removeDir st e) p
                  (by rw [hrec]; simpa [GcOutcome.state] using hp)
                have := List.of_mem_filter hp'
                rw [hpe] at this
                simp at this
              refine ⟨⟨f, by simp [hf1], hf2, hf3⟩, ?_, ?_⟩
              · intro x hx
                rcases List.mem_cons.mp hx with hxe | hx'
                · subst hxe
                  exact ⟨hm, by simp, hnotin⟩
                · obtain ⟨ha, hb, hc⟩ := hrep x hx'
                  exact ⟨ha, by simp [hb], hc⟩
              · intro p hp hpn
                have hpe : ¬(p.1 = e) := fun hh => hpn (by simp [hh])
                have hpn' : p.1 ∉ ds' := fun hh => hpn (List.mem_cons_of_mem _ hh)
                refine hsurv p ?_ hpn'
                exact List.mem_filter.mpr ⟨hp, by simp [hpe]⟩
        · rw [if_neg hd] at h
          injection h with h1 h2
          subst h1
          subst h2
          refine ⟨⟨e, by simp, hm, by simpa using hd⟩, by simp, fun p hp _ => hp⟩
      · rw [if_neg hm] at h
        obtain ⟨⟨f, hf1, hf2, hf3⟩, h2, h3⟩ := ih st ds h
        exact ⟨⟨f, by simp [hf1], hf2, hf3⟩,
          fun x hx => ⟨(h2 x hx).1, by simp [(h2 x hx).2.1], (h2 x hx).2.2⟩, h3⟩

/-- A delete failure on a marker-complete epoch is always reached (the
epochs before it are skipped or deleted), so the pass returns an
error. -/
theorem gcLoop_failed_of_delete_failure {α : Type} (markerOk deleteOk : Nat → Bool)
    (toProcess : List (Nat × α)) (st : List (Nat × α))
    (h : ∃ e ∈ keysOf toProcess, markerOk e = true ∧ deleteOk e = false) :
    ∃ ds st2, gcLoop markerOk deleteOk toProcess st = GcOutcome.failed ds st2 := by
  induction toProcess generalizing st with
  | nil => simp at h
  | cons q rest ih =>
      obtain ⟨k, c⟩ := q
      obtain ⟨e, he, hm, hd⟩ := h
      simp only [gcLoop]
      by_cases hmk : markerOk k
      · rw [if_pos hmk]
        by_cases hdk : deleteOk k
        · rw [if_pos hdk]
          have hrest : e ∈ keysOf rest := by
            rcases List.mem_cons.mp he with h1 | h1
            · subst h1
              rw [hdk] at hd
              cases hd
            · exact h1
          obtain ⟨ds, st2, hrec⟩ := ih (removeDir st k) ⟨e, hrest, hm, hd⟩
          rw [hrec]
          exact ⟨k :: ds, st2, rfl⟩
        · rw [if_neg hdk]
          exact ⟨[], st, rfl⟩
      · rw [if_neg hmk]
        have hrest : e ∈ keysOf rest := by
          rcases List.mem_cons.mp he with h1 | h1
          · subst h1
            rw [hm] at hmk
            exact absurd rfl hmk
          · exact h1
        exact ih st ⟨e, hrest, hm, hd⟩

/-- C6: a local epoch directory is deleted and reported as collected iff
all its configured readiness-marker reads succeed (when no delete call
fails, the pass returns exactly those epochs and the untouched rest);
any marker-read failure leaves the directory untouched; a failed delete
call on a marker-complete epoch makes the pass return an error, aborting
the remainder, with the epochs deleted before the failure gone from the
surviving index and everything unreported still present. -/
theorem c6_gc_marker_gated {α : Type} (markerOk deleteOk : Nat → Bool)
    (loc : LocalStore α) :
    ((∀ e ∈ keysOf loc.dirs, markerOk e = true → deleteOk e = true) →
      garbage_collect_old_db_checkpoints markerOk deleteOk loc =
        GcOutcome.ok ((keysOf loc.dirs).filter markerOk)
          (loc.dirs.filter (fun p => !(markerOk p.1))))
    ∧ (∀ e, e ∈ (keysOf loc.dirs).filter markerOk ↔
        e ∈ keysOf loc.dirs ∧ markerOk e = true)
    ∧ ((∃ e ∈ keysOf loc.dirs, markerOk e = true ∧ deleteOk e = false) →
        ∃ ds st2, garbage_collect_old_db_checkpoints markerOk deleteOk loc =
          GcOutcome.failed ds st2)
    ∧ (∀ ds st2, garbage_collect_old_db_checkpoints markerOk deleteOk loc =
          GcOutcome.failed ds st2 →
        (∃ f ∈ keysOf loc.dirs, markerOk f = true ∧ deleteOk f = false)
        ∧ (∀ x ∈ ds, markerOk x = true ∧ x ∈ keysOf loc.dirs ∧ x ∉ keysOf st2)
        ∧ (∀ p ∈ loc.dirs, p.1 ∉ ds → p ∈ st2)) := by
  refine ⟨?_, ?_, ?_, ?_⟩
  · intro h
    rw [garbage_collect_old_db_checkpoints, gcLoop_ok_no_delete_failure _ _ _ _ h]
    congr 1
    apply List.filter_congr
    intro p hp
    have hmem : p.1 ∈ keysOf loc.dirs := List.mem_map_of_mem Prod.fst hp
    have hc : (keysOf loc.dirs).contains p.1 = true := by
      simpa using hmem
    rw [hc, Bool.and_true]
  · intro e
    exact List.mem_filter
  · intro h
    exact gcLoop_failed_of_delete_failure markerOk deleteOk loc.dirs loc.dirs h
  · intro ds st2 h
    exact gcLoop_failed_cases markerOk deleteOk loc.dirs loc.dirs ds st2 h

/-- C6 witness: three local epochs; epoch 1 lacks a configured marker
and survives, epochs 0 and 2 are collected. -/
theorem c6_gc_marker_gated_witness :
    (∀ e ∈ keysOf ([(0, 10), (1, 11), (2, 12)] : List (Nat × Nat)),
        (fun x => !(x == 1)) e = true → (fun _ : Nat => true) e = true)
    ∧ garbage_collect_old_db_checkpoints (fun x => !(x == 1)) (fun _ => true)
        (LocalStore.mk [(0, 10), (1, 11), (2, 12)] []) =
      GcOutcome.ok
        ((keysOf ([(0, 10), (1, 11), (2, 12)] : List (Nat × Nat))).filter
          (fun x => !(x == 1)))
        (([(0, 10), (1, 11), (2, 12)] : List (Nat × Nat)).filter
          (fun p => !((fun x => !(x == 1)) p.1))) :=
  ⟨by decide,
   (c6_gc_marker_gated (fun x => !(x == 1)) (fun _ => true)
     (LocalStore.mk [(0, 10), (1, 11), (2, 12)] [])).1 (by decide)⟩

/-! ### The sync cycle (`start`, lines 129-139): gap detection feeding the uploader

For the idempotence claim the marker reads are deterministic functions
of the remote state: a read finds the marker exactly when the marker
object exists (no transient errors within the two runs, which is what
"no changes to the local or remote stores between the two runs"
requires). -/

/-- Outcome of the `SUCCESS_MARKER` read against a remote store state. -/
def markerResult {α : Type} (rem : RemoteStore α) (e : Nat) : GetResult :=
  if rem.markers.contains e then GetResult.found else GetResult.notFound

/-- The remote epoch index annotated with each epoch's marker-read
outcome — the input consumed by the scan loop. -/
def remoteScanInput {α : Type} (rem : RemoteStore α) : List (Nat × GetResult) :=
  rem.dirs.map (fun p => (p.1, markerResult rem p.1))

/-- `find_all_missing_checkpoint_epochs` against a remote store state. -/
def find_all_missing_on_store {α : Type} (rem : RemoteStore α) : List Nat :=
  gapScan (remoteScanInput rem) 0

/-- One sync tick of the handler loop (error-free): detect the missing
epochs on the remote store, then upload. -/
def syncCycle {α : Type} (pruneFlag : Bool) (loc : LocalStore α) (rem : RemoteStore α) :
    LocalStore α × RemoteStore α :=
  (upload_db_checkpoints_to_object_store pruneFlag
    (find_all_missing_on_store rem) loc rem).1

theorem keysOf_remoteScanInput {α : Type} (rem : RemoteStore α) :
    keysOf (remoteScanInput rem) = keysOf rem.dirs := by
  simp [remoteScanInput, keysOf, List.map_map, Function.comp]

/-- The loop only grows the remote directory index. -/
theorem uploadLoop_remote_dirs_mono {α : Type} (missing : List Nat) (boundary : Nat)
    (dirs : List (Nat × α)) (loc : LocalStore α) (rem : RemoteStore α) {e : Nat}
    (he : e ∈ keysOf rem.dirs) :
    e ∈ keysOf (uploadLoop missing boundary dirs loc rem).2.dirs := by
  induction dirs generalizing loc rem with
  | nil => exact he
  | cons p rest ih =>
      obtain ⟨k, c⟩ := p
      simp only [uploadLoop]
      by_cases hsel : selectedForUpload missing boundary k = true
      · rw [if_pos hsel]
        exact ih _ _ (mem_keysOf_insertAssoc.mpr (Or.inr he))
      · rw [if_neg hsel]
        exact ih _ _ he

/-- The loop only grows the remote marker set. -/
theorem uploadLoop_remote_markers_mono {α : Type} (missing : List Nat) (boundary : Nat)
    (dirs : List (Nat × α)) (loc : LocalStore α) (rem : RemoteStore α) {e : Nat}
    (he : e ∈ rem.markers) :
    e ∈ (uploadLoop missing boundary dirs loc rem).2.markers := by
  induction dirs generalizing loc rem with
  | nil => exact he
  | cons p rest ih =>
      obtain ⟨k, c⟩ := p
      simp only [uploadLoop]
      by_cases hsel : selectedForUpload missing boundary k = true
      · rw [if_pos hsel]
        exact ih _ _ (putMarker_mem.mpr (Or.inr he))
      · rw [if_neg hsel]
        exact ih _ _ he

/-- A selected local epoch ends up present and marked on the remote. -/
theorem uploadLoop_selected_synced {α : Type} (missing : List Nat) (boundary : Nat)
    (dirs : List (Nat × α)) (loc : LocalStore α) (rem : RemoteStore α) {e : Nat} {c : α}
    (he : (e, c) ∈ dirs) (hsel : selectedForUpload missing boundary e = true) :
    e ∈ keysOf (uploadLoop missing boundary dirs loc rem).2.dirs
    ∧ e ∈ (uploadLoop missing boundary dirs loc rem).2.markers := by
  induction dirs generalizing loc rem with
  | nil => cases he
  | cons p rest ih =>
      obtain ⟨k, c0⟩ := p
      rcases List.mem_cons.mp he with h | h
      · injection h with hk hc
        subst hk
        simp only [uploadLoop, if_pos hsel]
        constructor
        · exact uploadLoop_remote_dirs_mono missing boundary rest _ _
            (mem_keysOf_insertAssoc.mpr (Or.inl rfl))
        · exact uploadLoop_remote_markers_mono missing boundary rest _ _
            (putMarker_mem.mpr (Or.inl rfl))
      · simp only [uploadLoop]
        by_cases hselk : selectedForUpload missing boundary k = true
        · rw [if_pos hselk]
          exact ih _ _ h
        · rw [if_neg hselk]
          exact ih _ _ h

/-- The loop keeps the remote directory keys strictly ascending. -/
theorem uploadLoop_remote_sorted {α : Type} (missing : List Nat) (boundary : Nat)
    (dirs : List (Nat × α)) (loc : LocalStore α) (rem : RemoteStore α)
    (hr : (keysOf rem.dirs).Pairwise (· < ·)) :
    (keysOf (uploadLoop missing boundary dirs loc rem).2.dirs).Pairwise (· < ·) := by
  induction dirs generalizing loc rem with
  | nil => exact hr
  | cons p rest ih =>
      obtain ⟨k, c⟩ := p
      simp only [uploadLoop]
      by_cases hsel : selectedForUpload missing boundary k = true
      · rw [if_pos hsel]
        exact ih _ _ (insertAssoc_pairwise hr)
      · rw [if_neg hsel]
        exact ih _ _ hr

/-- If no iterated epoch is selected, the remote store is untouched. -/
theorem uploadLoop_remote_unchanged {α : Type} (missing : List Nat) (boundary : Nat)
    (dirs : List (Nat × α)) (loc : LocalStore α) (rem : RemoteStore α)
    (h : ∀ p ∈ dirs, selectedForUpload missing boundary p.1 = false) :
    (uploadLoop missing boundary dirs loc rem).2 = rem := by
  induction dirs generalizing loc rem with
  | nil => rfl
  | cons p rest ih =>
      obtain ⟨k, c⟩ := p
      have hk : selectedForUpload missing boundary k = false := h (k, c) (by simp)
      simp only [uploadLoop, if_neg (by simp [hk] : ¬selectedForUpload missing boundary k = true)]
      exact ih _ _ (fun q hq => h q (List.mem_cons_of_mem _ hq))

/-- After one sync cycle, every local epoch is present on the remote
store with its completion marker: selected epochs are uploaded and
marked, and a non-selected epoch was below the boundary and absent from
the missing list, hence already present and marked before the cycle. -/
theorem syncCycle_local_synced {α : Type} (pruneFlag : Bool) (loc : LocalStore α)
    (rem : RemoteStore α) (hr : (keysOf rem.dirs).Pairwise (· < ·)) {e : Nat}
    (he : e ∈ keysOf loc.dirs) :
    e ∈ keysOf (syncCycle pruneFlag loc rem).2.dirs
    ∧ e ∈ (syncCycle pruneFlag loc rem).2.markers := by
  obtain ⟨p, hp, hpe⟩ := List.mem_map.mp he
  obtain ⟨k, c⟩ := p
  simp only at hpe
  subst hpe
  have hs1 : (keysOf (remoteScanInput rem)).Pairwise (· < ·) := by
    rw [keysOf_remoteScanInput]
    exact hr
  have hlb : ∀ x ∈ keysOf (remoteScanInput rem), 0 ≤ x := fun x _ => Nat.zero_le x
  simp only [syncCycle, upload_db_checkpoints_to_object_store]
  by_cases hsel : selectedForUpload (find_all_missing_on_store rem)
      ((find_all_missing_on_store rem).getLast?.getD 0) k = true
  · exact uploadLoop_selected_synced _ _ _ _ _ hp hsel
  · have hb : (find_all_missing_on_store rem).getLast?.getD 0 =
        sentinelFrom 0 (remoteScanInput rem) := by
      rw [find_all_missing_on_store, gapScan_getLast?]
      rfl
    rw [selectedForUpload, Bool.or_eq_true, not_or] at hsel
    obtain ⟨hsel1, hsel2⟩ := hsel
    have hnotmem : k ∉ find_all_missing_on_store rem := by
      intro hmem
      exact hsel1 (by simpa using hmem)
    have hklt : k < sentinelFrom 0 (remoteScanInput rem) := by
      rw [← hb]
      have hnle : ¬((find_all_missing_on_store rem).getLast?.getD 0 ≤ k) := by
        intro hle
        exact hsel2 (by simpa using hle)
      omega
    have hkdir : k ∈ keysOf rem.dirs := by
      by_contra hkd
      apply hnotmem
      rw [find_all_missing_on_store]
      exact mem_gapScan_of_gap hs1 hlb
        (by rw [keysOf_remoteScanInput]; exact hkd) (Nat.zero_le k) hklt
    have hkmark : k ∈ rem.markers := by
      by_contra hkm
      apply hnotmem
      rw [find_all_missing_on_store]
      obtain ⟨q, hq, hqe⟩ := List.mem_map.mp hkdir
      have hmr : markerResult rem k = GetResult.notFound := by
        rw [markerResult, if_neg]
        intro hcc
        exact hkm (by simpa using hcc)
      have hin : (k, GetResult.notFound) ∈ remoteScanInput rem := by
        rw [remoteScanInput]
        refine List.mem_map.mpr ⟨q, hq, ?_⟩
        rw [hqe, hmr]
      exact mem_gapScan_of_notFound hin 0
    constructor
    · exact uploadLoop_remote_dirs_mono _ _ _ _ _ hkdir
    · exact uploadLoop_remote_markers_mono _ _ _ _ _ hkmark

/-- C9: running the sync cycle (gap detection followed by upload) twice
in a row with no changes to the stores in between leaves the remote
store — directory contents and markers — identical after the second run
to its state after the first: the second run selects nothing. -/
theorem c9_sync_cycle_idempotent {α : Type} (pruneFlag : Bool) (loc : LocalStore α)
    (rem : RemoteStore α) (hr : (keysOf rem.dirs).Pairwise (· < ·)) :
    (syncCycle pruneFlag (syncCycle pruneFlag loc rem).1
      (syncCycle pruneFlag loc rem).2).2 = (syncCycle pruneFlag loc rem).2 := by
  set loc1 := (syncCycle pruneFlag loc rem).1 with hloc1
  set rem1 := (syncCycle pruneFlag loc rem).2 with hrem1
  have hloc1dirs : loc1.dirs = loc.dirs := by
    rw [hloc1]
    simp only [syncCycle, upload_db_checkpoints_to_object_store]
    exact uploadLoop_local_dirs_eq _ _ _ _ _
  have hr1 : (keysOf rem1.dirs).Pairwise (· < ·) := by
    rw [hrem1]
    simp only [syncCycle, upload_db_checkpoints_to_object_store]
    exact uploadLoop_remote_sorted _ _ _ _ _ hr
  have hs1 : (keysOf (remoteScanInput rem1)).Pairwise (· < ·) := by
    rw [keysOf_remoteScanInput]
    exact hr1
  have hlb : ∀ x ∈ keysOf (remoteScanInput rem1), 0 ≤ x := fun x _ => Nat.zero_le x
  have hb2 : (find_all_missing_on_store rem1).getLast?.getD 0 =
      sentinelFrom 0 (remoteScanInput rem1) := by
    rw [find_all_missing_on_store, gapScan_getLast?]
    rfl
  have hnosel : ∀ p ∈ loc.dirs,
      selectedForUpload (find_all_missing_on_store rem1)
        ((find_all_missing_on_store rem1).getLast?.getD 0) p.1 = false := by
    intro p hp
    have he : p.1 ∈ keysOf loc.dirs := List.mem_map_of_mem Prod.fst hp
    obtain ⟨hd, hm⟩ := syncCycle_local_synced pruneFlag loc rem hr he
    have hd1 : p.1 ∈ keysOf (remoteScanInput rem1) := by
      rw [keysOf_remoteScanInput]
      exact hd
    have hlt : p.1 < sentinelFrom 0 (remoteScanInput rem1) :=
      lt_sentinelFrom_of_mem_keys hd1 0
    have hnotmem : p.1 ∉ find_all_missing_on_store rem1 := by
      intro hmem
      rw [find_all_missing_on_store] at hmem
      rcases mem_gapScan_cases hs1 hlb hmem with h | h | h
      · rw [h] at hlt
        exact lt_irrefl _ hlt
      · exact h hd1
      · obtain ⟨q, hq, hqe⟩ := List.mem_map.mp h
        injection hqe with h1 h2
        rw [h1, markerResult] at h2
        rw [if_pos (by simpa using hm)] at h2
        cases h2
    rw [selectedForUpload]
    have hc : (find_all_missing_on_store rem1).contains p.1 = false := by
      by_contra hcc
      rw [Bool.not_eq_false] at hcc
      exact hnotmem (by simpa using hcc)
    rw [hc, hb2]
    simp only [Bool.false_or, decide_eq_false_iff_not]
    omega
  show (syncCycle pruneFlag loc1 rem1).2 = rem1
  simp only [syncCycle, upload_db_checkpoints_to_object_store]
  apply uploadLoop_remote_unchanged
  rw [hloc1dirs]
  exact hnosel

/-- C9 witness: local epochs 0 and 2, remote initially holding epoch 0
without its marker. -/
theorem c9_sync_cycle_idempotent_witness :
    ((keysOf ([(0, 10)] : List (Nat × Nat))).Pairwise (· < ·))
    ∧ (syncCycle false
        (syncCycle false (LocalStore.mk [(0, 40), (2, 42)] []) (RemoteStore.mk [(0, 10)] [])).1
        (syncCycle false (LocalStore.mk [(0, 40), (2, 42)] []) (RemoteStore.mk [(0, 10)] [])).2).2 =
      (syncCycle false (LocalStore.mk [(0, 40), (2, 42)] []) (RemoteStore.mk [(0, 10)] [])).2 :=
  ⟨by decide,
   c9_sync_cycle_idempotent false (LocalStore.mk [(0, 40), (2, 42)] [])
     (RemoteStore.mk [(0, 10)] []) (by decide)⟩
